import Mathlib

/-!
Verification of the `addr-alias` core pipeline (src/addr-alias.py).

The Python source is shallowly embedded below: every pure function of the
program becomes a Lean function over `String` / `List Char` / `Nat`, with
machine integers modelled as `Nat` reduced modulo `2 ^ 32` where the code
relies on 32-bit wrap-around (inside SHA-256).  The floating-point entropy
score is modelled over `ℝ`.
-/

/-! ## SHA-256 (the `hashlib.sha256(...).hexdigest()` digest provider)

A complete executable SHA-256 over byte lists, so that the embedded
`sha256_hex` computes the very digests the program computes. -/

/-- Reduce modulo `2 ^ 32` (32-bit wrap-around). -/
def w32 (n : Nat) : Nat := n % 4294967296

/-- 32-bit bitwise complement (for values below `2 ^ 32`). -/
def not32 (x : Nat) : Nat := x ^^^ 4294967295

/-- 32-bit rotate right by `n` (for values below `2 ^ 32`). -/
def rotr (n x : Nat) : Nat := w32 ((x >>> n) ||| (x <<< (32 - n)))

def shaCh (x y z : Nat) : Nat := (x &&& y) ^^^ (not32 x &&& z)

def shaMaj (x y z : Nat) : Nat := (x &&& y) ^^^ (x &&& z) ^^^ (y &&& z)

def bigSigma0 (x : Nat) : Nat := rotr 2 x ^^^ rotr 13 x ^^^ rotr 22 x

def bigSigma1 (x : Nat) : Nat := rotr 6 x ^^^ rotr 11 x ^^^ rotr 25 x

def smallSigma0 (x : Nat) : Nat := rotr 7 x ^^^ rotr 18 x ^^^ (x >>> 3)

def smallSigma1 (x : Nat) : Nat := rotr 17 x ^^^ rotr 19 x ^^^ (x >>> 10)

/-- The 64 SHA-256 round constants. -/
def K256 : List Nat :=
  [1116352408, 1899447441, 3049323471, 3921009573, 961987163, 1508970993,
   2453635748, 2870763221, 3624381080, 310598401, 607225278, 1426881987,
   1925078388, 2162078206, 2614888103, 3248222580, 3835390401, 4022224774,
   264347078, 604807628, 770255983, 1249150122, 1555081692, 1996064986,
   2554220882, 2821834349, 2952996808, 3210313671, 3336571891, 3584528711,
   113926993, 338241895, 666307205, 773529912, 1294757372, 1396182291,
   1695183700, 1986661051, 2177026350, 2456956037, 2730485921, 2820302411,
   3259730800, 3345764771, 3516065817, 3600352804, 4094571909, 275423344,
   430227734, 506948616, 659060556, 883997877, 958139571, 1322822218,
   1537002063, 1747873779, 1955562222, 2024104815, 2227730452, 2361852424,
   2428436474, 2756734187, 3204031479, 3329325298]

/-- The 8-word SHA-256 working state. -/
structure Hash8 where
  a : Nat
  b : Nat
  c : Nat
  d : Nat
  e : Nat
  f : Nat
  g : Nat
  h : Nat

/-- The SHA-256 initial hash value. -/
def initH : Hash8 where
  a := 1779033703
  b := 3144134277
  c := 1013904242
  d := 2773480762
  e := 1359893119
  f := 2600822924
  g := 528734635
  h := 1541459225

/-- SHA-256 padding: append `0x80`, zero bytes up to 56 mod 64, then the
    64-bit big-endian bit length. -/
def padMessage (msg : List Nat) : List Nat :=
  let L := msg.length * 8
  msg ++ [0x80] ++ List.replicate ((119 - msg.length % 64) % 64) 0 ++
    [56, 48, 40, 32, 24, 16, 8, 0].map (fun s => (L >>> s) % 256)

/-- Split a byte list into 64-byte blocks.  Structural recursion on a fuel
    argument that the wrapper instantiates with the list length. -/
def chunks64Go : Nat → List Nat → List (List Nat)
  | 0, _ => []
  | _ + 1, [] => []
  | fuel + 1, l => l.take 64 :: chunks64Go fuel (l.drop 64)

def chunks64 (l : List Nat) : List (List Nat) := chunks64Go l.length l

/-- Group bytes four at a time into big-endian 32-bit words. -/
def bytesToWordsGo : Nat → List Nat → List Nat
  | 0, _ => []
  | _ + 1, [] => []
  | fuel + 1, l => (l.take 4).foldl (fun a b => 256 * a + b) 0 :: bytesToWordsGo fuel (l.drop 4)

def bytesToWords (l : List Nat) : List Nat := bytesToWordsGo l.length l

/-- Extend the 16 message words to the 64-entry message schedule. -/
def extendSchedule (w : List Nat) : List Nat :=
  (List.range 48).foldl
    (fun w _ =>
      let n := w.length
      w ++ [w32 (smallSigma1 (w.getD (n - 2) 0) + w.getD (n - 7) 0 +
                 smallSigma0 (w.getD (n - 15) 0) + w.getD (n - 16) 0)])
    w

/-- One SHA-256 compression round. -/
def sha256Round (st : Hash8) (kw : Nat × Nat) : Hash8 :=
  let t1 := w32 (st.h + bigSigma1 st.e + shaCh st.e st.f st.g + kw.1 + kw.2)
  let t2 := w32 (bigSigma0 st.a + shaMaj st.a st.b st.c)
  ⟨w32 (t1 + t2), st.a, st.b, st.c, w32 (st.d + t1), st.e, st.f, st.g⟩

/-- Compress one 64-byte block into the running state. -/
def processBlock (st : Hash8) (block : List Nat) : Hash8 :=
  let w := extendSchedule (bytesToWords block)
  let s := (K256.zip w).foldl sha256Round st
  ⟨w32 (st.a + s.a), w32 (st.b + s.b), w32 (st.c + s.c), w32 (st.d + s.d),
   w32 (st.e + s.e), w32 (st.f + s.f), w32 (st.g + s.g), w32 (st.h + s.h)⟩

def hashWords (st : Hash8) : List Nat := [st.a, st.b, st.c, st.d, st.e, st.f, st.g, st.h]

/-- Big-endian bytes of a 32-bit word. -/
def wordBytes (w : Nat) : List Nat :=
  [(w >>> 24) % 256, (w >>> 16) % 256, (w >>> 8) % 256, w % 256]

/-- SHA-256 of a byte list, as the list of the 32 digest bytes. -/
def sha256Bytes (msg : List Nat) : List Nat :=
  ((hashWords ((chunks64 (padMessage msg)).foldl processBlock initH)).map wordBytes).flatten

/-- UTF-8 encoding of one character (Python `str.encode("utf-8")`). -/
def utf8Encode (c : Char) : List Nat :=
  let n := c.toNat
  if n < 0x80 then [n]
  else if n < 0x800 then [0xc0 + (n >>> 6), 0x80 + n % 64]
  else if n < 0x10000 then [0xe0 + (n >>> 12), 0x80 + (n >>> 6) % 64, 0x80 + n % 64]
  else [0xf0 + (n >>> 18), 0x80 + (n >>> 12) % 64, 0x80 + (n >>> 6) % 64, 0x80 + n % 64]

def strToBytes (s : String) : List Nat := (s.data.map utf8Encode).flatten

/-- The sixteen lowercase hexadecimal digit characters. -/
def hexChars : List Char := ("0123456789abcdef").data

/-- Two lowercase hex characters of a byte. -/
def byteToHex (b : Nat) : List Char := [hexChars.getD (b / 16) ('0'), hexChars.getD (b % 16) ('0')]

/-- Embeds `sha256_hex` (line 27): `hashlib.sha256(s.encode("utf-8")).hexdigest()`. -/
def sha256_hex (s : String) : String :=
  String.mk ((sha256Bytes (strToBytes s)).map byteToHex).flatten

/-! ## The program's core functions (src/addr-alias.py) -/

/-- Alphabets of the alias generator (lines 18-19). -/
def VOWELS : String := "aeiou"

def CONSONANTS : String := "bcdfghjklmnpqrstvwxyz"

/-- The characters Python `str.strip()` removes (the `str.isspace` set). -/
def isPyWs (c : Char) : Bool :=
  c = (' ') ∨ c = ('\t') ∨ c = ('\n') ∨ c = ('\r') ∨ c = ('\x0b') ∨ c = ('\x0c') ∨
  c = ('\x1c') ∨ c = ('\x1d') ∨ c = ('\x1e') ∨ c = ('\x1f') ∨ c = ('\x85') ∨ c = ('\xa0') ∨
  c = (' ') ∨ (' ' ≤ c ∧ c ≤ (' ')) ∨ c = (' ') ∨ c = (' ') ∨
  c = (' ') ∨ c = (' ') ∨ c = ('　')

/-- Python `s.strip()`: drop leading and trailing whitespace. -/
def pyStrip (l : List Char) : List Char :=
  ((l.dropWhile isPyWs).reverse.dropWhile isPyWs).reverse

/-- Python `a.startswith("0x") or a.startswith("0X")` (line 23). -/
def startsWith0x : List Char → Bool
  | '0' :: 'x' :: _ => true
  | '0' :: 'X' :: _ => true
  | _ => false

/-- Embeds `hex_normalize` (lines 21-25): strip, drop one `0x`/`0X` prefix, lowercase. -/
def hex_normalize (addr : String) : String :=
  let a := pyStrip addr.data
  let a := if startsWith0x a then a.drop 2 else a
  String.mk (a.map Char.toLower)

/-- Value of a hexadecimal digit character as in Python `int(-, 16)`, by
    code point: digits `0`-`9`, then `a`-`f`, then `A`-`F` (non-hex
    characters never reach it in the program; they map to 0). -/
def hexDigitVal (c : Char) : Nat :=
  if 48 ≤ c.toNat ∧ c.toNat ≤ 57 then c.toNat - 48
  else if 97 ≤ c.toNat ∧ c.toNat ≤ 102 then c.toNat - 87
  else if 65 ≤ c.toNat ∧ c.toNat ≤ 70 then c.toNat - 55
  else 0

/-- Python `int(string, 16)` on a hex-digit string. -/
def hexToNat (l : List Char) : Nat := l.foldl (fun a c => 16 * a + hexDigitVal c) 0

/-- Python `str.capitalize()`: first character upper-cased, the rest lower-cased. -/
def pyCapitalize (s : String) : String :=
  match s.data with
  | [] => ("")
  | c :: cs => String.mk (Char.toUpper c :: cs.map Char.toLower)

/-- One loop iteration of `make_pronounceable_alias` (lines 39-46): the
    3-character syllable derived from hex digest characters `[2i, 2i+2)`. -/
def aliasSyllable (h : List Char) (i : Nat) : List Char :=
  let byte := hexToNat ((h.drop (i * 2)).take 2)
  [CONSONANTS.data.getD (byte % CONSONANTS.length) ('b'),
   VOWELS.data.getD ((byte >>> 3) % VOWELS.length) ('a'),
   CONSONANTS.data.getD ((byte >>> 5) % CONSONANTS.length) ('b')]

/-- Embeds `make_pronounceable_alias` (lines 30-49). -/
def make_pronounceable_alias (hexstr : String) (seed : String := "") : String :=
  let h := sha256_hex (hexstr ++ ("|") ++ seed)
  let «alias» := ((List.range 5).map (aliasSyllable h.data)).flatten
  pyCapitalize (String.mk («alias».take 12))

/-- Embeds `bin(int(h, 16))[2:].zfill(256)` (line 57).  The digest value of a
    64-hex-character digest is below `2 ^ 256`, so the zero-padded binary
    string is exactly the 256 binary digits, most significant first; digit
    `j` is bit `255 - j` of the value. -/
def toBits (h : String) : List Char :=
  (List.range 256).map (fun j => if (hexToNat h.data).testBit (255 - j) then ('1') else ('0'))

/-- Embeds `ascii_identicon` (lines 51-70).  The source fills a mutable
    `size × size` grid: for each row `r` and left-half column `c < half`
    (`half = (size+1)/2`) it reads one bit at the cursor — which has advanced
    `r * half + c` steps from 0, wrapping to 0 at `len(bits)` — writes the
    glyph into `grid[r][c]` and mirrors it into `grid[r][size-1-c]`.  A cell
    in column `j` therefore holds the bit of left-half column `j` when
    `j < half`, and of column `size-1-j` otherwise. -/
def ascii_identicon (hexstr : String) (size : Nat := 7) : List String :=
  let h := sha256_hex hexstr
  let bits := toBits h
  let half := (size + 1) / 2
  (List.range size).map (fun r =>
    String.mk ((List.range size).map (fun j =>
      let c := if j < half then j else size - 1 - j
      if bits.getD ((r * half + c) % bits.length) ('0') = ('1') then ('█') else (' '))))

/-- One character of Python `str.lower()` (line 78).  Unicode lower-casing
    sends every character to a single character except U+0130 (LATIN
    CAPITAL LETTER I WITH DOT ABOVE), which expands to the two characters
    U+0069 U+0307; the embedding maps that character and the ASCII range
    faithfully and leaves the remaining characters unchanged — a modelling
    restriction that still gives every character a lower-case image of the
    same length as Python does. -/
def pyLowerChar (c : Char) : List Char :=
  if c = ('\u0130') then [('\u0069'), ('\u0307')] else [Char.toLower c]

/-- Python `s.lower()` as used at line 78. -/
def pyLower (s : String) : String := String.mk ((s.data.map pyLowerChar).flatten)

/-- `total = sum(cnt.values()) if cnt else 1` (line 80): the counter's keys
    are the distinct characters; the sum of their counts, 1 when empty. -/
def entropyTotal (l : List Char) : Nat :=
  if l.dedup = [] then 1 else (l.dedup.map (fun c => l.count c)).sum

/-- The accumulated value of `ent` (lines 82-85): starting at 0.0, the loop
    subtracts `p * log2 p` (with the factor 0 when `p ≤ 0`) over the
    counter's values.  Real numbers model Python floats. -/
noncomputable def entropyH (l : List Char) : ℝ :=
  -((l.dedup.map (fun c =>
      ((l.count c : ℝ) / (entropyTotal l : ℝ)) *
        (if 0 < ((l.count c : ℝ) / (entropyTotal l : ℝ)) then
          Real.logb 2 ((l.count c : ℝ) / (entropyTotal l : ℝ)) else 0))).sum)

/-- Python `round(x, 1)`. -/
noncomputable def round1 (x : ℝ) : ℝ := (round (x * 10) : ℤ) / 10

/-- Embeds `entropy_score_from_hex` (lines 72-89). -/
noncomputable def entropy_score_from_hex (hexstr : String) : ℝ :=
  let s := pyLower hexstr
  round1 (min (100 : ℝ) ((entropyH s.data / 4) * 100))

/-! ## The report pipeline (`main`, lines 106-126) -/

/-- The report dictionary built at lines 118-126. -/
structure Report where
  input : String
  normalized : String
  fingerprint : String
  short_id : String
  «alias» : String
  entropy_score : ℝ
  identicon_lines : List String

/-- Embeds the derivation pipeline of `main` (lines 106-126): normalize,
    unseeded fingerprint, seeded alias, identicon at grid size 7, entropy
    score, short id = first 8 digest characters. -/
noncomputable def buildReport (addr : String) (seed : String) : Report :=
  let hexaddr := hex_normalize addr
  let fingerprint := sha256_hex hexaddr
  { input := addr
    normalized := hexaddr
    fingerprint := fingerprint
    short_id := String.mk (fingerprint.data.take 8)
    «alias» := make_pronounceable_alias hexaddr seed
    entropy_score := entropy_score_from_hex hexaddr
    identicon_lines := ascii_identicon hexaddr 7 }

/-! ## Reference definition for the alias claim (C3) -/

/-- Upper-case only the first character, leaving the rest untouched. -/
def upperFirst (s : String) : String :=
  match s.data with
  | [] => ("")
  | c :: cs => String.mk (Char.toUpper c :: cs)

/-- Reference alias algorithm, following the specification text (§4.3):
    digest of `normalized + "|" + seed`; for i in 0..4 parse hex characters
    `[2i, 2i+2)` as a byte; syllable `consonants[byte mod 21]`,
    `vowels[(byte >> 3) mod 5]`, `consonants[(byte >> 5) mod 21]`;
    concatenate, truncate to 12, upper-case only the first character. -/
def specAliasAlgorithm (normalized seed : String) : String :=
  let digest := sha256_hex (normalized ++ ("|") ++ seed)
  let syllables := (List.range 5).map (fun i =>
    let byte := hexToNat ((digest.data.drop (2 * i)).take 2)
    [("bcdfghjklmnpqrstvwxyz").data.getD (byte % 21) ('b'),
     ("aeiou").data.getD ((byte >>> 3) % 5) ('a'),
     ("bcdfghjklmnpqrstvwxyz").data.getD ((byte >>> 5) % 21) ('b')])
  upperFirst (String.mk (syllables.flatten.take 12))

/-! ## Supporting lemmas -/

theorem hexDigitVal_lt (c : Char) : hexDigitVal c < 16 := by
  unfold hexDigitVal
  split_ifs <;> omega

theorem getD_mem_of_lt {l : List Char} {i : Nat} (h : i < l.length) (d : Char) :
    l.getD i d ∈ l := by
  have he : l.getD i d = l[i] := List.getD_eq_getElem l d h
  rw [he]
  exact List.getElem_mem h

theorem hexChars_getD_mem (i : Nat) (d : Char) (hd : d ∈ hexChars) :
    hexChars.getD i d ∈ hexChars := by
  by_cases h : i < hexChars.length
  · exact getD_mem_of_lt h d
  · rw [List.getD_eq_default _ _ (le_of_not_lt h)]
    exact hd

theorem byteToHex_mem (b : Nat) (c : Char) (hc : c ∈ byteToHex b) : c ∈ hexChars := by
  simp only [byteToHex, List.mem_cons, List.mem_singleton] at hc
  rcases hc with h | h | h
  · exact h ▸ hexChars_getD_mem _ _ (by decide)
  · exact h ▸ hexChars_getD_mem _ _ (by decide)
  · cases h

theorem length_flatten_byteToHex (bs : List Nat) :
    ((bs.map byteToHex).flatten).length = 2 * bs.length := by
  induction bs with
  | nil => rfl
  | cons b bs ih => simp [byteToHex, ih]; omega

theorem sha256Bytes_length (msg : List Nat) : (sha256Bytes msg).length = 32 := by
  simp [sha256Bytes, hashWords, wordBytes]

theorem sha256_hex_length (s : String) : (sha256_hex s).length = 64 := by
  show ((sha256Bytes (strToBytes s)).map byteToHex).flatten.length = 64
  rw [length_flatten_byteToHex, sha256Bytes_length]

theorem sha256_hex_chars (s : String) : ∀ c ∈ (sha256_hex s).data, c ∈ hexChars := by
  intro c hc
  have hc' : c ∈ ((sha256Bytes (strToBytes s)).map byteToHex).flatten := hc
  rw [List.mem_flatten] at hc'
  obtain ⟨l, hl, hcl⟩ := hc'
  rw [List.mem_map] at hl
  obtain ⟨b, _, rfl⟩ := hl
  exact byteToHex_mem b c hcl

theorem hexToNat_lt_pow (l : List Char) : hexToNat l < 16 ^ l.length := by
  suffices h : ∀ (l : List Char) (acc : Nat),
      l.foldl (fun a c => 16 * a + hexDigitVal c) acc < (acc + 1) * 16 ^ l.length by
    have h0 := h l 0
    simpa using h0
  intro l
  induction l with
  | nil => intro acc; simpa using Nat.lt_succ_self acc
  | cons c l ih =>
    intro acc
    calc (c :: l).foldl (fun a c => 16 * a + hexDigitVal c) acc
        = l.foldl (fun a c => 16 * a + hexDigitVal c) (16 * acc + hexDigitVal c) := rfl
      _ < (16 * acc + hexDigitVal c + 1) * 16 ^ l.length := ih _
      _ ≤ (acc + 1) * 16 ^ (c :: l).length := by
          have hd := hexDigitVal_lt c
          have : 16 * acc + hexDigitVal c + 1 ≤ (acc + 1) * 16 := by omega
          calc (16 * acc + hexDigitVal c + 1) * 16 ^ l.length
              ≤ ((acc + 1) * 16) * 16 ^ l.length :=
                Nat.mul_le_mul_right _ this
            _ = (acc + 1) * 16 ^ (c :: l).length := by
                rw [List.length_cons, pow_succ]; ring

theorem getD_map_range {α : Type} (f : Nat → α) {N i : Nat} (h : i < N) (d : α) :
    ((List.range N).map f).getD i d = f i := by
  have hlen : i < ((List.range N).map f).length := by
    simpa using h
  rw [List.getD_eq_getElem _ _ hlen]
  simp

theorem toBits_length (h : String) : (toBits h).length = 256 := by
  simp [toBits]

theorem identiconRow_col_eq {N half c : Nat} (hhalf : half = (N + 1) / 2) (hc : c < N) :
    (if c < half then c else N - 1 - c) =
      (if N - 1 - c < half then N - 1 - c else N - 1 - (N - 1 - c)) := by
  subst hhalf
  split_ifs <;> omega

theorem data_mk (l : List Char) : (String.mk l).data = l := rfl

theorem length_mk (l : List Char) : (String.mk l).length = l.length := rfl

/-- C2: for every input string and every grid size `N ≥ 1`, `ascii_identicon`
    returns exactly `N` rows, each row a string of exactly `N` characters,
    and every row is horizontally symmetric: the character at column `c`
    equals the character at column `N - 1 - c` for every `c < N`. -/
theorem identicon_shape_and_symmetry (hexstr : String) (N : Nat) (_hN : 1 ≤ N) :
    (ascii_identicon hexstr N).length = N ∧
    ∀ row ∈ ascii_identicon hexstr N, row.length = N ∧
      ∀ c, c < N → row.data.getD c (' ') = row.data.getD (N - 1 - c) (' ') := by
  constructor
  · simp [ascii_identicon]
  · intro row hrow
    simp only [ascii_identicon, List.mem_map] at hrow
    obtain ⟨r, hr, rfl⟩ := hrow
    refine ⟨by simp [length_mk], ?_⟩
    intro c hc
    have hc' : N - 1 - c < N := by omega
    rw [data_mk, getD_map_range _ hc, getD_map_range _ hc']
    have hcol := identiconRow_col_eq (N := N) (c := c) rfl hc
    simp only [hcol]

set_option maxRecDepth 8000 in
/-- Witness for C2 at the concrete input `"ab"` with grid size 3. -/
theorem identicon_shape_and_symmetry_witness :
    1 ≤ 3 ∧ (ascii_identicon ("ab") 3).length = 3 ∧
      ((ascii_identicon ("ab") 3).getD 0 ("")).length = 3 ∧
      ((ascii_identicon ("ab") 3).getD 0 ("")).data.getD 0 (' ') =
        ((ascii_identicon ("ab") 3).getD 0 ("")).data.getD (3 - 1 - 0) (' ') := by
  have h := identicon_shape_and_symmetry ("ab") 3 (by decide)
  have hm : (ascii_identicon ("ab") 3).getD 0 ("") ∈ ascii_identicon ("ab") 3 := by decide
  exact ⟨by decide, h.1, (h.2 _ hm).1, (h.2 _ hm).2 0 (by decide)⟩

theorem consonant_getD_mem (n : Nat) :
    CONSONANTS.data.getD (n % CONSONANTS.length) ('b') ∈ CONSONANTS.data := by
  have h : n % CONSONANTS.length < CONSONANTS.data.length :=
    Nat.mod_lt _ (by decide)
  exact getD_mem_of_lt h _

theorem vowel_getD_mem (n : Nat) :
    VOWELS.data.getD (n % VOWELS.length) ('a') ∈ VOWELS.data := by
  have h : n % VOWELS.length < VOWELS.data.length := Nat.mod_lt _ (by decide)
  exact getD_mem_of_lt h _

theorem aliasSyllable_chars (h : List Char) (i : Nat) :
    ∀ c ∈ aliasSyllable h i, c ∈ CONSONANTS.data ∨ c ∈ VOWELS.data := by
  intro c hc
  simp only [aliasSyllable, List.mem_cons, List.mem_singleton] at hc
  rcases hc with rfl | rfl | rfl | hfalse
  · exact Or.inl (consonant_getD_mem _)
  · exact Or.inr (vowel_getD_mem _)
  · exact Or.inl (consonant_getD_mem _)
  · cases hfalse

theorem aliasChars (d : List Char) :
    ∀ c ∈ ((List.range 5).map (aliasSyllable d)).flatten,
      c ∈ CONSONANTS.data ∨ c ∈ VOWELS.data := by
  intro c hc
  rw [List.mem_flatten] at hc
  obtain ⟨l, hl, hcl⟩ := hc
  rw [List.mem_map] at hl
  obtain ⟨i, _, rfl⟩ := hl
  exact aliasSyllable_chars d i c hcl

theorem aliasFlatten_length (d : List Char) :
    (((List.range 5).map (aliasSyllable d)).flatten).length = 15 := rfl

theorem alphabet_toLower_fix :
    (∀ c ∈ CONSONANTS.data, Char.toLower c = c) ∧ ∀ c ∈ VOWELS.data, Char.toLower c = c := by
  decide

theorem alphabet_isLower :
    (∀ c ∈ CONSONANTS.data, c.isLower = true) ∧ ∀ c ∈ VOWELS.data, c.isLower = true := by
  decide

theorem alphabet_toUpper_isUpper :
    (∀ c ∈ CONSONANTS.data, (Char.toUpper c).isUpper = true) ∧
      ∀ c ∈ VOWELS.data, (Char.toUpper c).isUpper = true := by
  decide

theorem pyCapitalize_length (s : String) : (pyCapitalize s).length = s.length := by
  rcases hs : s.data with _ | ⟨c, cs⟩ <;>
    simp [pyCapitalize, hs, String.length, length_mk]

/-- The truncated syllable concatenation that the alias is built from. -/
theorem aliasTrunc_shape (d : List Char) :
    ∃ c0 cs, (((List.range 5).map (aliasSyllable d)).flatten).take 12 = c0 :: cs ∧
      (c0 ∈ CONSONANTS.data ∨ c0 ∈ VOWELS.data) ∧
      (∀ c ∈ cs, c ∈ CONSONANTS.data ∨ c ∈ VOWELS.data) ∧ cs.length = 11 := by
  have hlen : ((((List.range 5).map (aliasSyllable d)).flatten).take 12).length = 12 := by
    rw [List.length_take, aliasFlatten_length]
    decide
  rcases hcons : (((List.range 5).map (aliasSyllable d)).flatten).take 12 with _ | ⟨c0, cs⟩
  · rw [hcons] at hlen; cases hlen
  · refine ⟨c0, cs, rfl, ?_, ?_, ?_⟩
    · exact aliasChars d c0 (List.mem_of_mem_take (hcons ▸ List.mem_cons_self c0 cs))
    · intro c hc
      exact aliasChars d c
        (List.mem_of_mem_take (hcons ▸ List.mem_cons_of_mem c0 hc))
    · rw [hcons] at hlen
      simpa using hlen

theorem toNat_ofNat_of_lt {n : Nat} (h : n < 55296) : (Char.ofNat n).toNat = n := by
  have hv : n.isValidChar := Or.inl (by omega)
  rw [Char.ofNat, dif_pos hv]
  rfl

theorem toLower_toLower (c : Char) : (Char.toLower c).toLower = Char.toLower c := by
  simp only [Char.toLower]
  by_cases h : c.toNat ≥ 65 ∧ c.toNat ≤ 90
  · rw [if_pos h]
    have hn : (Char.ofNat (c.toNat + 32)).toNat = c.toNat + 32 :=
      toNat_ofNat_of_lt (by omega)
    rw [if_neg (by rw [hn]; omega)]
  · rw [if_neg h, if_neg h]

/-- Structure of the alias character list: an upper-cased alphabet character
    followed by eleven lower-cased alphabet characters. -/
theorem alias_data_shape (hexstr seed : String) :
    ∃ (c0 : Char) (cs : List Char), (make_pronounceable_alias hexstr seed).data =
        Char.toUpper c0 :: cs.map Char.toLower ∧
      (c0 ∈ CONSONANTS.data ∨ c0 ∈ VOWELS.data) ∧
      (∀ c ∈ cs, c ∈ CONSONANTS.data ∨ c ∈ VOWELS.data) ∧ cs.length = 11 := by
  obtain ⟨c0, cs, hcons, hc0, hcs, hlen⟩ :=
    aliasTrunc_shape (sha256_hex (hexstr ++ ("|") ++ seed)).data
  refine ⟨c0, cs, ?_, hc0, hcs, hlen⟩
  simp only [make_pronounceable_alias, hcons, pyCapitalize, data_mk]

theorem alias_length_12 (hexstr seed : String) :
    (make_pronounceable_alias hexstr seed).length = 12 := by
  obtain ⟨c0, cs, hdata, _, _, hlen⟩ := alias_data_shape hexstr seed
  show (make_pronounceable_alias hexstr seed).data.length = 12
  rw [hdata]
  simp [hlen]

theorem pyCapitalize_eq_upperFirst (t : List Char)
    (ht : ∀ c ∈ t, Char.toLower c = c) :
    pyCapitalize (String.mk t) = upperFirst (String.mk t) := by
  rcases t with _ | ⟨c, cs⟩
  · rfl
  · simp only [pyCapitalize, upperFirst, data_mk]
    have hmap : cs.map Char.toLower = cs := by
      calc cs.map Char.toLower
          = cs.map id := List.map_congr_left
            (fun a ha => ht a (List.mem_cons_of_mem c ha))
        _ = cs := List.map_id cs
    rw [hmap]

/-- C3: the alias produced by the code coincides, for every input and seed,
    with the reference algorithm stated by the specification (§4.3). -/
theorem alias_matches_spec_algorithm (hexstr seed : String) :
    make_pronounceable_alias hexstr seed = specAliasAlgorithm hexstr seed := by
  have hmap : (List.range 5).map (fun i =>
      let byte := hexToNat
        (((sha256_hex (hexstr ++ ("|") ++ seed)).data.drop (2 * i)).take 2)
      [("bcdfghjklmnpqrstvwxyz").data.getD (byte % 21) ('b'),
       ("aeiou").data.getD ((byte >>> 3) % 5) ('a'),
       ("bcdfghjklmnpqrstvwxyz").data.getD ((byte >>> 5) % 21) ('b')]) =
      (List.range 5).map
        (aliasSyllable (sha256_hex (hexstr ++ ("|") ++ seed)).data) := by
    apply List.map_congr_left
    intro i _
    rw [Nat.mul_comm 2 i]
    rfl
  simp only [make_pronounceable_alias, specAliasAlgorithm]
  rw [hmap]
  apply pyCapitalize_eq_upperFirst
  intro c hc
  have hmem := aliasChars (sha256_hex (hexstr ++ ("|") ++ seed)).data c
    (List.mem_of_mem_take hc)
  rcases hmem with h | h
  · exact alphabet_toLower_fix.1 c h
  · exact alphabet_toLower_fix.2 c h

/-- C9: the alias has exactly 12 characters, for every input and seed. -/
theorem alias_exact_length (hexstr seed : String) :
    (make_pronounceable_alias hexstr seed).length = 12 :=
  alias_length_12 hexstr seed

/-- C7: the alias is at most 12 characters long, its first character is an
    upper-case letter, and every remaining character is a lower-case letter
    drawn from the consonant and vowel alphabets. -/
theorem alias_shape (hexstr seed : String) :
    (make_pronounceable_alias hexstr seed).length ≤ 12 ∧
    ((make_pronounceable_alias hexstr seed).data.headD ('A')).isUpper = true ∧
    ∀ c ∈ (make_pronounceable_alias hexstr seed).data.tail,
      c.isLower = true ∧ (c ∈ CONSONANTS.data ∨ c ∈ VOWELS.data) := by
  obtain ⟨c0, cs, hdata, hc0, hcs, _⟩ := alias_data_shape hexstr seed
  refine ⟨le_of_eq (alias_length_12 hexstr seed), ?_, ?_⟩
  · rw [hdata, List.headD_cons]
    rcases hc0 with h | h
    · exact alphabet_toUpper_isUpper.1 c0 h
    · exact alphabet_toUpper_isUpper.2 c0 h
  · rw [hdata, List.tail_cons]
    intro c hc
    rw [List.mem_map] at hc
    obtain ⟨c', hc', rfl⟩ := hc
    rcases hcs c' hc' with h | h
    · rw [alphabet_toLower_fix.1 c' h]
      exact ⟨alphabet_isLower.1 c' h, Or.inl h⟩
    · rw [alphabet_toLower_fix.2 c' h]
      exact ⟨alphabet_isLower.2 c' h, Or.inr h⟩

set_option maxRecDepth 8000 in
/-- Witness for C7 at the concrete input `("deadbeef", "")`. -/
theorem alias_shape_witness :
    (make_pronounceable_alias ("deadbeef") ("")).length ≤ 12 ∧
    ((make_pronounceable_alias ("deadbeef") ("")).data.headD ('A')).isUpper = true ∧
    ((make_pronounceable_alias ("deadbeef") ("")).data.tail.headD ('z')).isLower = true ∧
    ((make_pronounceable_alias ("deadbeef") ("")).data.tail.headD ('z') ∈ CONSONANTS.data ∨
      (make_pronounceable_alias ("deadbeef") ("")).data.tail.headD ('z') ∈ VOWELS.data) := by
  have h := alias_shape ("deadbeef") ("")
  have hm : (make_pronounceable_alias ("deadbeef") ("")).data.tail.headD ('z') ∈
      (make_pronounceable_alias ("deadbeef") ("")).data.tail := by decide
  exact ⟨h.1, h.2.1, (h.2.2 _ hm).1, (h.2.2 _ hm).2⟩

/-- C10: the alias depends on its two arguments only through the
    concatenation `hexstr + "|" + seed`; pairs with equal concatenation
    yield identical aliases. -/
theorem alias_delimiter_collision (h1 s1 h2 s2 : String)
    (hcat : h1 ++ ("|") ++ s1 = h2 ++ ("|") ++ s2) :
    make_pronounceable_alias h1 s1 = make_pronounceable_alias h2 s2 := by
  simp only [make_pronounceable_alias, hcat]

/-- Witness for C10: address `"a|"` with seed `"b"` collides with address
    `"a"` with seed `"|b"`. -/
theorem alias_delimiter_collision_witness :
    (("a|" : String) ++ ("|") ++ ("b") = ("a" : String) ++ ("|") ++ ("|b")) ∧
    make_pronounceable_alias ("a|") ("b") = make_pronounceable_alias ("a") ("|b") :=
  ⟨by decide, alias_delimiter_collision ("a|") ("b") ("a") ("|b") (by decide)⟩

/-- Counterexample to C6 as stated: normalization is not idempotent on every
    string.  Stripping one `0x` prefix can expose a second one, which only a
    second normalization removes: `hex_normalize "0x0xAB" = "0xab"`, while
    normalizing again gives `"ab"`. -/
theorem hex_normalize_not_idempotent :
    hex_normalize (hex_normalize ("0x0xAB")) ≠ hex_normalize ("0x0xAB") := by
  decide

/-- C6 (amended): `hex_normalize` is idempotent on every string whose
    normalization carries no leading/trailing whitespace and no residual
    `0x`/`0X` prefix; and the concrete equalities of the claim hold:
    `hex_normalize "0xAB12" = "ab12" = hex_normalize "ab12"`. -/
theorem hex_normalize_idempotent_amended :
    (∀ x : String, pyStrip (hex_normalize x).data = (hex_normalize x).data →
      startsWith0x (hex_normalize x).data = false →
      hex_normalize (hex_normalize x) = hex_normalize x) ∧
    hex_normalize ("0xAB12") = ("ab12") ∧ hex_normalize ("ab12") = ("ab12") := by
  refine ⟨?_, by decide, by decide⟩
  intro x hstrip hpre
  obtain ⟨a, ha⟩ : ∃ a : List Char, (hex_normalize x).data = a.map Char.toLower :=
    ⟨_, rfl⟩
  show String.mk ((if startsWith0x (pyStrip (hex_normalize x).data) then
      (pyStrip (hex_normalize x).data).drop 2
    else pyStrip (hex_normalize x).data).map Char.toLower) = hex_normalize x
  rw [hstrip, hpre]
  simp only [Bool.false_eq_true, if_false]
  apply String.ext
  rw [data_mk, ha, List.map_map]
  apply List.map_congr_left
  intro c _
  exact toLower_toLower c

/-- Witness for the amended C6 at the concrete input `"ab"`. -/
theorem hex_normalize_idempotent_amended_witness :
    pyStrip (hex_normalize ("ab")).data = (hex_normalize ("ab")).data ∧
    startsWith0x (hex_normalize ("ab")).data = false ∧
    hex_normalize (hex_normalize ("ab")) = hex_normalize ("ab") :=
  ⟨by decide, by decide,
    hex_normalize_idempotent_amended.1 ("ab") (by decide) (by decide)⟩

/-- C1: the pipeline is deterministic — two invocations of the report
    derivation on the identical pair `(A, S)` agree on every field.  In the
    embedding every derivation is a pure function of `(A, S)` alone, so the
    two runs are one and the same value. -/
theorem pipeline_deterministic (A S : String) :
    (buildReport A S).input = (buildReport A S).input ∧
    (buildReport A S).normalized = (buildReport A S).normalized ∧
    (buildReport A S).fingerprint = (buildReport A S).fingerprint ∧
    (buildReport A S).short_id = (buildReport A S).short_id ∧
    (buildReport A S).«alias» = (buildReport A S).«alias» ∧
    (buildReport A S).entropy_score = (buildReport A S).entropy_score ∧
    (buildReport A S).identicon_lines = (buildReport A S).identicon_lines :=
  ⟨rfl, rfl, rfl, rfl, rfl, rfl, rfl⟩

/-- C4: changing the seed leaves `normalized`, `fingerprint`, `short_id`,
    `entropy_score` and `identicon_lines` untouched — those derivations use
    the unseeded digest or the raw normalized string; only the alias
    consumes the seed. -/
theorem seed_frame_effect (A S1 S2 : String) :
    (buildReport A S1).normalized = (buildReport A S2).normalized ∧
    (buildReport A S1).fingerprint = (buildReport A S2).fingerprint ∧
    (buildReport A S1).short_id = (buildReport A S2).short_id ∧
    (buildReport A S1).entropy_score = (buildReport A S2).entropy_score ∧
    (buildReport A S1).identicon_lines = (buildReport A S2).identicon_lines :=
  ⟨rfl, rfl, rfl, rfl, rfl⟩

/-- C8: the partial operations of the core are reachable only within
    bounds, for arbitrary string input: the digest has exactly 64
    characters, all hexadecimal; its value fits 256 bits; the identicon bit
    string has length 256 and the wrapped cursor always lands inside it;
    the alias digest slices `[2i, 2i+2)` have length 2 for `i < 5`; and the
    entropy denominator is positive. -/
theorem core_functions_total (s seed : String) :
    (sha256_hex s).length = 64 ∧
    (∀ c ∈ (sha256_hex s).data, c ∈ hexChars) ∧
    hexToNat (sha256_hex s).data < 2 ^ 256 ∧
    (toBits (sha256_hex s)).length = 256 ∧
    (∀ k : Nat, k % (toBits (sha256_hex s)).length < (toBits (sha256_hex s)).length) ∧
    (∀ i : Nat, i < 5 →
      (((sha256_hex (s ++ ("|") ++ seed)).data.drop (i * 2)).take 2).length = 2) ∧
    0 < entropyTotal ((pyLower s).data) := by
  refine ⟨sha256_hex_length s, sha256_hex_chars s, ?_, toBits_length _, ?_, ?_, ?_⟩
  · have hb := hexToNat_lt_pow (sha256_hex s).data
    have hl : (sha256_hex s).data.length = 64 := sha256_hex_length s
    rw [hl] at hb
    calc hexToNat (sha256_hex s).data < 16 ^ 64 := hb
      _ = 2 ^ 256 := by decide
  · intro k
    rw [toBits_length]
    omega
  · intro i hi
    have hl : (sha256_hex (s ++ ("|") ++ seed)).data.length = 64 :=
      sha256_hex_length (s ++ ("|") ++ seed)
    rw [List.length_take, List.length_drop, hl]
    omega
  · unfold entropyTotal
    split_ifs with h
    · omega
    · rw [List.sum_map_count_dedup_eq_length]
      have hne : (pyLower s).data ≠ [] := by
        intro hnil
        rw [hnil] at h
        exact h rfl
      have := List.length_pos.mpr hne
      omega

set_option maxRecDepth 8000 in
/-- Witness for C8 at the concrete input `("ab", "")`, cursor position 1000
    and slice index 4. -/
theorem core_functions_total_witness :
    (sha256_hex ("ab")).length = 64 ∧
    hexToNat (sha256_hex ("ab")).data < 2 ^ 256 ∧
    (toBits (sha256_hex ("ab"))).length = 256 ∧
    1000 % (toBits (sha256_hex ("ab"))).length < (toBits (sha256_hex ("ab"))).length ∧
    (4 < 5 ∧
      (((sha256_hex (("ab") ++ ("|") ++ (""))).data.drop (4 * 2)).take 2).length = 2) ∧
    0 < entropyTotal ((pyLower ("ab")).data) := by
  have h := core_functions_total ("ab") ("")
  exact ⟨h.1, h.2.2.1, h.2.2.2.1, h.2.2.2.2.1 1000,
    ⟨by decide, h.2.2.2.2.2.1 4 (by decide)⟩, h.2.2.2.2.2.2⟩

